import Mathlib

set_option maxRecDepth 10000

/-!
Verification development for `caption_images.py`: a batch image captioning /
renaming tool driven by an external inference service.  The pure data model
and control flow of the script are embedded as Lean functions over `List Char`
strings, and the documented properties of the sanitizer, the filename
post-processing, the screenshot-filename classifier, the retry/escalation
controller, the rename resolver and the batch driver are proved or refuted
against this embedding.

Modelling conventions:
* Python strings are `List Char`; the ASCII fragments of the regex classes
  `\s` and `\w` are modelled explicitly (the repository only ever feeds the
  relevant functions ASCII-cleaned data).
* The filesystem directory is a list of file names; `Path.exists()` is exact
  membership and the case-insensitive listing check lowercases every name.
* `Path.resolve()` equality of two paths in the same directory is name
  equality (the model has no symlinks).
* The interactive prompt is an injected list of valid operator choices; an
  exhausted list behaves like EOF, which the script maps to choice 1 (abort).
-/

namespace CaptionImages

abbrev Str := List Char

/-- Double quote character. -/
def dquote : Char := Char.ofNat 34

/-- Single quote character. -/
def squote : Char := Char.ofNat 39

/-- Backslash character. -/
def bslash : Char := Char.ofNat 92

/-- Characters replaced by `sanitize_filename` (Python regex class of
`<`, `>`, `:`, double quote, `/`, backslash, `|`, `?`, `*`). -/
def isFsInvalid (c : Char) : Bool :=
  c = '<' || c = '>' || c = ':' || c = dquote || c = '/' || c = bslash ||
    c = '|' || c = '?' || c = '*'

/-- ASCII fragment of the Python regex class of whitespace characters. -/
def isPySpace (c : Char) : Bool :=
  c = ' ' || c = Char.ofNat 9 || c = Char.ofNat 10 || c = Char.ofNat 13 ||
    c = Char.ofNat 11 || c = Char.ofNat 12

/-- Character class of the Python regex used at line 158: whitespace or hyphen. -/
def isWsOrHyphen (c : Char) : Bool := isPySpace c || c = '-'

/-- ASCII fragment of the Python regex class of word characters. -/
def pyWordChar (c : Char) : Bool := c.isAlphanum || c = '_'

/-- State machine replacing every maximal run of `p`-characters by the single
character `rep`; the flag records whether the previous character was in a run.
This is `re.sub` with pattern "one or more `p`-characters" and replacement
`rep`. -/
def collapseRunsAux (p : Char → Bool) (rep : Char) : Bool → Str → Str
  | _, [] => []
  | inRun, c :: rest =>
    if p c then
      if inRun then collapseRunsAux p rep true rest
      else rep :: collapseRunsAux p rep true rest
    else c :: collapseRunsAux p rep false rest

/-- Replace every maximal run of `p`-characters by the single character `rep`. -/
def collapseRuns (p : Char → Bool) (rep : Char) (s : Str) : Str :=
  collapseRunsAux p rep false s

/-- Python `str.strip(cs)`: drop the characters of `cs` from both ends. -/
def stripChars (cs : List Char) (s : Str) : Str :=
  ((s.dropWhile (cs.contains ·)).reverse.dropWhile (cs.contains ·)).reverse

/-- Python `str.strip()` with no argument: drop whitespace from both ends. -/
def stripPyWs (s : Str) : Str :=
  ((s.dropWhile isPySpace).reverse.dropWhile isPySpace).reverse

/-- The sanitizer (`sanitize_filename`, lines 153-164): replace the invalid
filesystem characters by hyphen, collapse whitespace/hyphen runs to a single
hyphen, strip leading/trailing dots and spaces, truncate to 200 characters. -/
def sanitize_filename (s : Str) : Str :=
  let s1 := s.map (fun c => if isFsInvalid c then '-' else c)
  let s2 := collapseRuns isWsOrHyphen '-' s1
  let s3 := stripChars ['.', ' '] s2
  if s3.length > 200 then s3.take 200 else s3

/-- The pure post-processing of the raw model response inside
`generate_filename` (lines 139-146): strip surrounding quotes, replace every
character that is not a word character or hyphen by a hyphen, collapse hyphen
runs, strip leading/trailing hyphens, and fall back to "untitled" when the
result is empty. -/
def generateFilenamePost (s : Str) : Str :=
  let s1 := stripChars [dquote, squote] s
  let s2 := s1.map (fun c => if pyWordChar c || c = '-' then c else '-')
  let s3 := collapseRuns (fun c => c = '-') '-' s2
  let s4 := stripChars ['-'] s3
  if s4 = [] then "untitled".toList else s4

/-- The full pure result transform of `generate_filename` applied to the raw
response text: the Gateway trim (line 137) followed by the post-processing. -/
def generate_filename_text (raw : Str) : Str :=
  generateFilenamePost (stripPyWs raw)

/-- The pure result transform of `caption_image` (line 91): trim the raw
response. -/
def caption_image_text (raw : Str) : Str := stripPyWs raw

/-- Consume an initial segment matching the literal pattern case-insensitively
(the regex at line 21 is compiled with the ignore-case flag, so every letter of
the pattern matches both cases; non-letters are unchanged by lowercasing). -/
def ciEat : Str → Str → Option Str
  | [], s => some s
  | _ :: _, [] => none
  | p :: ps, c :: cs => if c.toLower = p.toLower then ciEat ps cs else none

/-- Consume an initial segment matching the literal pattern exactly. -/
def exactEat : Str → Str → Option Str
  | [], s => some s
  | _ :: _, [] => none
  | p :: ps, c :: cs => if c = p then exactEat ps cs else none

/-- Consume exactly `n` decimal digit characters. -/
def digitsEat : Nat → Str → Option Str
  | 0, s => some s
  | _ + 1, [] => none
  | n + 1, c :: cs => if c.isDigit then digitsEat n cs else none

/-- Consume the single literal character `c`. -/
def litEat (c : Char) : Str → Option Str
  | [] => none
  | d :: ds => if d = c then some ds else none

/-- The classifier regex of line 21 applied with `re.match` (anchored at the
start, trailing content unconstrained): "Screenshot ", four digits, hyphen,
two digits, hyphen, two digits, " at ", two digits, dot, two digits, dot,
two digits — all letters case-insensitive because of the ignore-case flag. -/
def is_macos_screenshot_filename (stem : Str) : Bool :=
  (((((((((((ciEat "Screenshot ".toList stem).bind
    (digitsEat 4)).bind
    (litEat '-')).bind
    (digitsEat 2)).bind
    (litEat '-')).bind
    (digitsEat 2)).bind
    (ciEat " at ".toList)).bind
    (digitsEat 2)).bind
    (litEat '.')).bind
    (digitsEat 2)).bind
    (litEat '.')).bind
    (digitsEat 2) |>.isSome

/-- The matcher claim C8 describes: identical to the code's regex except that
the separator " at " is matched literally (case-sensitively) rather than under
the regex's ignore-case flag. -/
def claimScreenshotMatcher (stem : Str) : Bool :=
  (((((((((((ciEat "Screenshot ".toList stem).bind
    (digitsEat 4)).bind
    (litEat '-')).bind
    (digitsEat 2)).bind
    (litEat '-')).bind
    (digitsEat 2)).bind
    (exactEat " at ".toList)).bind
    (digitsEat 2)).bind
    (litEat '.')).bind
    (digitsEat 2)).bind
    (litEat '.')).bind
    (digitsEat 2) |>.isSome

/-- The fixed image extension set of `get_image_files` (line 27). -/
def image_extensions : List Str :=
  [".jpg".toList, ".jpeg".toList, ".png".toList, ".gif".toList,
    ".webp".toList, ".bmp".toList, ".tiff".toList, ".tif".toList]

/-- Lowercase every character of a name. -/
def lowerStr (s : Str) : Str := s.map Char.toLower

/-- A directory entry, modelled as the stem/extension decomposition that
`Path.stem` and `Path.suffix` perform on its file name. -/
structure FileEntry where
  stem : Str
  ext : Str
deriving DecidableEq

/-- The full file name of an entry. -/
def FileEntry.name (f : FileEntry) : Str := f.stem ++ f.ext

/-- The eligibility filter of `get_image_files` (lines 39-41): the lowercased
extension belongs to the image extension set and the stem matches the macOS
screenshot pattern.  (All modelled entries are regular files.) -/
def eligibleFile (f : FileEntry) : Bool :=
  image_extensions.contains (lowerStr f.ext) && is_macos_screenshot_filename f.stem

/-- Lexicographic comparison of names by character code, the order in which
Python's `sorted` ranks the paths of a single directory. -/
def nameLe : Str → Str → Bool
  | [], _ => true
  | _ :: _, [] => false
  | a :: as, b :: bs => if a = b then nameLe as bs else decide (a < b)

/-- Path order on directory entries. -/
def fileLe (f g : FileEntry) : Prop := nameLe f.name g.name = true

instance : DecidableRel fileLe := fun f g => by unfold fileLe; infer_instance

/-- The scan of `get_image_files` (lines 37-44): keep the eligible entries and
return them sorted by path. -/
def get_image_files (entries : List FileEntry) : List FileEntry :=
  List.insertionSort fileLe (entries.filter eligibleFile)

/-- Result of one Gateway invocation, as the Controller observes it. -/
inductive AttemptOutcome where
  | success (raw : Str)
  | failure (err : Str)
deriving DecidableEq

/-- A valid answer to the escalation prompt of `prompt_user_after_failures`. -/
inductive Choice where
  | abort
  | retry
  | skip
deriving DecidableEq

/-- Python `str` applied to the optional last error (`str(None)` is "None";
the controller only reads it after at least one failure, so the default never
surfaces). -/
def optStr (o : Option Str) : Str := o.getD "None".toList

/-- The inner `for attempt in range(1, max_retries + 1)` loop (lines 229-244):
starting at global call counter `c` with `n` attempts left and last error
`le`, return the transformed result if some attempt succeeds, together with
the number of Gateway calls consumed and the updated last error. -/
def tryAttempts (gw : Nat → AttemptOutcome) (tf : Str → Str) :
    Nat → Nat → Option Str → Option Str × Nat × Option Str
  | _, 0, le => (none, 0, le)
  | c, n + 1, le =>
    match gw c with
    | .success raw => (some (tf raw), 1, le)
    | .failure e =>
      let r := tryAttempts gw tf (c + 1) n (some e)
      (r.1, r.2.1 + 1, r.2.2)

/-- Terminal state of the per-file controller. -/
inductive CtrlOutcome where
  | resolved (text : Str)
  | skipped (err : Str)
  | aborted (err : Str)
deriving DecidableEq

/-- Controller result: terminal state, Gateway calls consumed, prompt answers
left for the rest of the run. -/
structure CtrlResult where
  outcome : CtrlOutcome
  calls : Nat
  choicesLeft : List Choice
deriving DecidableEq

/-- The `while True` escalation loop of `process_images` (lines 228-272):
run a cycle of 3 attempts; on success resolve, otherwise consume one prompt
answer — abort on choice 1 (or on exhausted input, the EOF behaviour of
`prompt_user_after_failures`), restart the cycle on choice 2, skip on
choice 3. -/
def controllerLoop (gw : Nat → AttemptOutcome) (tf : Str → Str) :
    List Choice → Nat → Option Str → CtrlResult
  | chs, c, le =>
    match tryAttempts gw tf c 3 le with
    | (some t, used, _) => ⟨.resolved t, used, chs⟩
    | (none, used, le') =>
      match chs with
      | [] => ⟨.aborted (optStr le'), used, []⟩
      | ch :: rest =>
        match ch with
        | .abort => ⟨.aborted (optStr le'), used, rest⟩
        | .skip => ⟨.skipped (optStr le'), used, rest⟩
        | .retry =>
          let r := controllerLoop gw tf rest (c + used) le'
          ⟨r.outcome, used + r.calls, r.choicesLeft⟩

/-- Error-log message synthesized on a user skip (line 268). -/
def skipMsg (err : Str) : Str :=
  "Skipped by user after 3 failed attempts. Last error: ".toList ++ err

/-- Error-log message for an empty sanitized name (line 288). -/
def emptyMsg : Str :=
  "Generated filename is empty after sanitization".toList

/-- Error-log message for an exhausted collision search (line 326). -/
def giveupMsg : Str :=
  "Could not find available filename after 1000 attempts".toList

/-- Error-log message for a failed rename (line 338). -/
def renameFailMsg (detail : Str) : Str :=
  "Failed to rename file: ".toList ++ detail

/-- Numbered rename candidate `base-counter + ext` (line 313). -/
def numberedName (base : Str) (k : Nat) (ext : Str) : Str :=
  base ++ '-' :: Nat.toDigits 10 k ++ ext

/-- The i-th candidate the collision loop probes: the plain `base + ext` first,
then the numbered variants. -/
def candidateName (base ext : Str) (i : Nat) : Str :=
  if i = 0 then base ++ ext else numberedName base i ext

/-- `Path.exists()` in the model: exact name membership in the directory. -/
def fsExists (dir : List Str) (n : Str) : Bool := dir.contains n

/-- The case-insensitive directory check of lines 318-319: the lowercased
candidate occurs among the lowercased names of the directory listing. -/
def ciMatch (dir : List Str) (n : Str) : Bool :=
  (dir.map lowerStr).contains (lowerStr n)

/-- The collision `while counter <= max_attempts` loop of lines 306-323.
`orig` is the name of the file being renamed; path resolution of two names of
one directory coincides exactly when the names coincide. -/
def resolveLoop (dir : List Str) (orig base ext : Str) :
    Nat → Str → Option Str
  | counter, cand =>
    if h : counter ≤ 1000 then
      if fsExists dir cand then
        if cand = orig then some cand
        else resolveLoop dir orig base ext (counter + 1) (numberedName base counter ext)
      else
        if ciMatch dir cand then
          resolveLoop dir orig base ext (counter + 1) (numberedName base counter ext)
        else some cand
    else none
  termination_by counter _ => 1001 - counter
  decreasing_by all_goals omega

/-- The Rename Resolver (lines 300-329): starting from the plain candidate
with counter 1, find a collision-free destination or give up (`none`). -/
def resolveRename (dir : List Str) (orig base ext : Str) : Option Str :=
  resolveLoop dir orig base ext 1 (base ++ ext)

/-- The conflict test one probe of the collision loop applies to a candidate:
an existing file of that exact name that is not the original file itself, or,
when no file of that exact name exists, a case-insensitive match in the
directory listing. -/
def conflictsWith (dir : List Str) (orig cand : Str) : Bool :=
  if fsExists dir cand then decide (cand ≠ orig) else ciMatch dir cand

/-- Processing mode of the batch run. -/
inductive Mode where
  | caption
  | rename
deriving DecidableEq

/-- The result transform the Controller applies to a successful raw response,
by mode (lines 231-236). -/
def taskTransform : Mode → Str → Str
  | .caption, raw => caption_image_text raw
  | .rename, raw => generate_filename_text raw

/-- Per-file terminal outcome of the Batch Driver. -/
inductive FileOutcome where
  | captionWritten
  | renamed (newName : Str)
  | noopUnchanged
  | userSkip
  | abortRun
  | emptySanitized
  | collisionExhausted
  | renameIOFailure
deriving DecidableEq

/-- The terminal outcomes that are not a resolution of the file: the claimed
"terminal-but-not-resolved" set. -/
def badOutcome : FileOutcome → Bool
  | .userSkip => true
  | .abortRun => true
  | .emptySanitized => true
  | .collisionExhausted => true
  | .renameIOFailure => true
  | _ => false

/-- Result of processing one file: outcome, error-log entries appended (file
name paired with message), directory contents afterwards, Gateway calls
consumed, prompt answers left. -/
structure StepResult where
  outcome : FileOutcome
  logs : List (Str × Str)
  dir : List Str
  calls : Nat
  choicesLeft : List Choice
deriving DecidableEq

/-- Name-mode finalization of a resolved text (lines 284-340): sanitize, test
for the empty name, test for the case-insensitive no-op, resolve collisions,
and rename.  `renameErr` injects the outcome of the filesystem rename call:
`some detail` is an exception with that detail. -/
def finalizeRename (dir : List Str) (origName ext : Str) (t : Str)
    (renameErr : Option Str) : FileOutcome × List (Str × Str) × List Str :=
  let s := sanitize_filename t
  if s = [] then (.emptySanitized, [(origName, emptyMsg)], dir)
  else
    let newName := s ++ ext
    if lowerStr newName = lowerStr origName then (.noopUnchanged, [], dir)
    else
      match resolveRename dir origName s ext with
      | none => (.collisionExhausted, [(origName, giveupMsg)], dir)
      | some target =>
        match renameErr with
        | some detail => (.renameIOFailure, [(origName, renameFailMsg detail)], dir)
        | none => (.renamed target, [], target :: dir.erase origName)

/-- Process one file (lines 217-345): run the escalation controller, then
log the abort or skip, or finalize the resolved text by mode.  Exactly the
log writes the script performs for this file are returned. -/
def processFile (mode : Mode) (gw : Nat → AttemptOutcome) (renameErr : Option Str)
    (dir : List Str) (f : FileEntry) (chs : List Choice) (c : Nat) : StepResult :=
  let ctrl := controllerLoop gw (taskTransform mode) chs c none
  match ctrl.outcome with
  | .aborted e => ⟨.abortRun, [(f.name, e)], dir, ctrl.calls, ctrl.choicesLeft⟩
  | .skipped e => ⟨.userSkip, [(f.name, skipMsg e)], dir, ctrl.calls, ctrl.choicesLeft⟩
  | .resolved t =>
    match mode with
    | .caption => ⟨.captionWritten, [], dir, ctrl.calls, ctrl.choicesLeft⟩
    | .rename =>
      let r := finalizeRename dir f.name f.ext t renameErr
      ⟨r.1, r.2.1, r.2.2, ctrl.calls, ctrl.choicesLeft⟩

/-- Result of a batch run: outcome per processed file in processing order,
error-log entries in write order, final directory, final Gateway call count. -/
structure BatchResult where
  outcomes : List (Str × FileOutcome)
  logs : List (Str × Str)
  dir : List Str
  calls : Nat
deriving DecidableEq

/-- The Batch Driver loop of `process_images` (lines 217-345): process the
queued files in order, stopping the whole run when a file aborts.  The prompt
answers and the Gateway call counter are threaded through the run; `renameErr`
gives the rename outcome per file name. -/
def runBatch (mode : Mode) (gw : Nat → AttemptOutcome)
    (renameErr : Str → Option Str) :
    List FileEntry → List Str → List Choice → Nat → BatchResult
  | [], dir, _, c => ⟨[], [], dir, c⟩
  | f :: rest, dir, chs, c =>
    let st := processFile mode gw (renameErr f.name) dir f chs c
    if st.outcome = .abortRun then
      ⟨[(f.name, st.outcome)], st.logs, st.dir, c + st.calls⟩
    else
      let br := runBatch mode gw renameErr rest st.dir st.choicesLeft (c + st.calls)
      ⟨(f.name, st.outcome) :: br.outcomes, st.logs ++ br.logs, br.dir, br.calls⟩

/-- A concrete directory listing: two eligible screenshot files and one
ineligible file. -/
def c10entriesA : List FileEntry :=
  [⟨"Screenshot 2025-01-02 at 10.20.30".toList, ".png".toList⟩,
    ⟨"Screenshot 2025-01-01 at 10.20.30".toList, ".jpg".toList⟩,
    ⟨"notes".toList, ".txt".toList⟩]

/-- The same directory listing in another enumeration order. -/
def c10entriesB : List FileEntry :=
  [⟨"notes".toList, ".txt".toList⟩,
    ⟨"Screenshot 2025-01-01 at 10.20.30".toList, ".jpg".toList⟩,
    ⟨"Screenshot 2025-01-02 at 10.20.30".toList, ".png".toList⟩]

/-- Right-fold formulation of "collapse repeated hyphens", as the spec words
it: a hyphen is dropped when what follows already starts with a hyphen. -/
def collapseHyphensFold (s : Str) : Str :=
  s.foldr (fun c acc => if c = '-' ∧ acc.head? = some '-' then acc else c :: acc) []

/-- The filename post-processing exactly as claim C3 words it: characters
outside alphanumerics/hyphen (underscore included) become hyphens. -/
def claimFilenamePost (s : Str) : Str :=
  let s1 := stripChars [dquote, squote] s
  let s2 := s1.map (fun c => if c.isAlphanum || c = '-' then c else '-')
  let s3 := collapseRuns (fun c => c = '-') '-' s2
  let s4 := stripChars ['-'] s3
  if s4 = [] then "untitled".toList else s4

/-- The filename post-processing as amended: the replacement keeps word
characters (letters, digits, underscore) and hyphens, everything else becomes
a hyphen; written with the spec-style right-fold collapse. -/
def specFilenamePostAmended (s : Str) : Str :=
  let s1 := stripChars [dquote, squote] s
  let s2 := s1.map
    (fun c => if c.isAlpha || c.isDigit || c = '_' || c = '-' then c else '-')
  let s3 := collapseHyphensFold s2
  let s4 := stripChars ['-'] s3
  if s4 = [] then "untitled".toList else s4

/-- A run of exactly `n` decimal digit characters. -/
def DigitRun (d : Str) (n : Nat) : Prop :=
  d.length = n ∧ ∀ c ∈ d, c.isDigit = true

/-- The shape claim C8 describes for a screenshot stem, amended so that the
separator " at " is, like the word "Screenshot", matched case-insensitively
(the regex's ignore-case flag covers the whole pattern): a case variant of
"Screenshot ", a 4-digit year, hyphen, 2-digit month, hyphen, 2-digit day, a
case variant of " at ", and a dot-separated 6-digit time, with arbitrary
trailing content. -/
def ScreenshotShapeCI (stem : Str) : Prop :=
  ∃ w d1 d2 d3 a t1 t2 t3 rest,
    stem = w ++ d1 ++ '-' :: d2 ++ '-' :: d3 ++ a ++ t1 ++ '.' :: t2
      ++ '.' :: t3 ++ rest ∧
    w.map Char.toLower = "screenshot ".toList ∧
    a.map Char.toLower = " at ".toList ∧
    DigitRun d1 4 ∧ DigitRun d2 2 ∧ DigitRun d3 2 ∧
    DigitRun t1 2 ∧ DigitRun t2 2 ∧ DigitRun t3 2

/-- The directory of the C4 counterexample: exactly the 1000 candidates the
loop probes. -/
def c4dir : List Str :=
  (List.range 1000).map (candidateName "photo".toList ".jpg".toList)

/-! ### Controller lemmas -/

/-- With a Gateway that fails on every call, one cycle of three attempts makes
exactly three calls, produces no result, and retains the detail of the third
failure as the last error. -/
theorem tryAttempts_allFail (gw : Nat → AttemptOutcome) (tf : Str → Str)
    (e : Nat → Str) (hgw : ∀ n, gw n = .failure (e n)) (c : Nat) (le : Option Str) :
    tryAttempts gw tf c 3 le = (none, 3, some (e (c + 2))) := by
  simp [tryAttempts, hgw c, hgw (c + 1), hgw (c + 2), Nat.add_assoc]

/-- C1: with a Gateway that fails on every call, the per-file controller run
invokes the Gateway exactly 3 times and then blocks on the operator; when the
operator chooses skip, the file's outcome is a user skip, exactly one
error-log entry is written for the file, and its message contains the detail
of the third (last) failure. -/
theorem c1_three_attempts_then_skip_logs_once (mode : Mode)
    (gw : Nat → AttemptOutcome) (e : Nat → Str)
    (hgw : ∀ n, gw n = .failure (e n)) (renameErr : Option Str)
    (dir : List Str) (f : FileEntry) (c : Nat) :
    (processFile mode gw renameErr dir f [.skip] c).calls = 3 ∧
    (processFile mode gw renameErr dir f [.skip] c).outcome = .userSkip ∧
    (processFile mode gw renameErr dir f [.skip] c).logs
      = [(f.name, skipMsg (e (c + 2)))] ∧
    e (c + 2) <:+: skipMsg (e (c + 2)) := by
  have h3 := tryAttempts_allFail gw (taskTransform mode) e hgw c none
  refine ⟨?_, ?_, ?_,
      ⟨"Skipped by user after 3 failed attempts. Last error: ".toList, [],
        by simp [skipMsg]⟩⟩ <;>
    simp [processFile, controllerLoop, h3, optStr, skipMsg]

/-- Witness for C1 at a concrete always-failing Gateway. -/
theorem c1_three_attempts_then_skip_logs_once_witness :
    (∀ n : Nat, (fun _ : Nat => AttemptOutcome.failure ['x']) n
        = .failure ((fun _ : Nat => ['x']) n)) ∧
    ((processFile .caption (fun _ => .failure ['x']) none []
        ⟨"a".toList, ".jpg".toList⟩ [.skip] 0).calls = 3 ∧
      (processFile .caption (fun _ => .failure ['x']) none []
        ⟨"a".toList, ".jpg".toList⟩ [.skip] 0).outcome = .userSkip ∧
      (processFile .caption (fun _ => .failure ['x']) none []
        ⟨"a".toList, ".jpg".toList⟩ [.skip] 0).logs
        = [(FileEntry.name ⟨"a".toList, ".jpg".toList⟩, skipMsg ['x'])] ∧
      ['x'] <:+: skipMsg ['x']) :=
  ⟨fun _ => rfl,
    c1_three_attempts_then_skip_logs_once .caption _ (fun _ => ['x'])
      (fun _ => rfl) none [] ⟨"a".toList, ".jpg".toList⟩ 0⟩

/-- C6: with two files queued and a Gateway that fails on every call, choosing
abort on the first file ends the run with only the first file processed,
exactly one error-log entry (the first file's last failure detail), and only
the 3 Gateway calls of the first file — the second file is never attempted. -/
theorem c6_abort_on_first_file_halts_run (mode : Mode)
    (gw : Nat → AttemptOutcome) (e : Nat → Str)
    (hgw : ∀ n, gw n = .failure (e n)) (renameErr : Str → Option Str)
    (f1 f2 : FileEntry) (dir : List Str) :
    (runBatch mode gw renameErr [f1, f2] dir [.abort] 0).outcomes
      = [(f1.name, .abortRun)] ∧
    (runBatch mode gw renameErr [f1, f2] dir [.abort] 0).logs
      = [(f1.name, e 2)] ∧
    (runBatch mode gw renameErr [f1, f2] dir [.abort] 0).calls = 3 := by
  have h3 := tryAttempts_allFail gw (taskTransform mode) e hgw 0 none
  simp [runBatch, processFile, controllerLoop, h3, optStr]

/-- Witness for C6 at a concrete always-failing Gateway and two files. -/
theorem c6_abort_on_first_file_halts_run_witness :
    (∀ n : Nat, (fun _ : Nat => AttemptOutcome.failure ['x']) n
        = .failure ((fun _ : Nat => ['x']) n)) ∧
    ((runBatch .caption (fun _ => .failure ['x']) (fun _ => none)
        [⟨"a".toList, ".jpg".toList⟩, ⟨"b".toList, ".jpg".toList⟩]
        [] [.abort] 0).outcomes
        = [(FileEntry.name ⟨"a".toList, ".jpg".toList⟩, .abortRun)] ∧
      (runBatch .caption (fun _ => .failure ['x']) (fun _ => none)
        [⟨"a".toList, ".jpg".toList⟩, ⟨"b".toList, ".jpg".toList⟩]
        [] [.abort] 0).logs
        = [(FileEntry.name ⟨"a".toList, ".jpg".toList⟩, ['x'])] ∧
      (runBatch .caption (fun _ => .failure ['x']) (fun _ => none)
        [⟨"a".toList, ".jpg".toList⟩, ⟨"b".toList, ".jpg".toList⟩]
        [] [.abort] 0).calls = 3) :=
  ⟨fun _ => rfl,
    c6_abort_on_first_file_halts_run .caption _ (fun _ => ['x']) (fun _ => rfl)
      (fun _ => none) ⟨"a".toList, ".jpg".toList⟩ ⟨"b".toList, ".jpg".toList⟩ []⟩

/-! ### Rename Resolver: the concrete collision scenario -/

/-- C7: with `photo.jpg` and `photo-1.jpg` already in the directory, resolving
desired base `photo` with extension `.jpg` for a different source file yields
`photo-2.jpg`. -/
theorem c7_collision_yields_photo_2 :
    resolveRename
      ["photo.jpg".toList, "photo-1.jpg".toList,
        "Screenshot 2025-01-01 at 10.10.10.jpg".toList]
      "Screenshot 2025-01-01 at 10.10.10.jpg".toList
      "photo".toList ".jpg".toList
      = some "photo-2.jpg".toList := by
  rw [resolveRename, resolveLoop, resolveLoop, resolveLoop]
  decide

/-! ### Sanitizer lemmas -/

/-- Collapsing runs never lengthens a string. -/
theorem length_collapseRunsAux_le (p : Char → Bool) (rep : Char) :
    ∀ (s : Str) (b : Bool), (collapseRunsAux p rep b s).length ≤ s.length := by
  intro s
  induction s with
  | nil => intro b; simp [collapseRunsAux]
  | cons x rest ih =>
    intro b
    by_cases hx : p x = true <;> cases b <;>
      simp [collapseRunsAux, hx] <;> exact Nat.le_trans (ih _) (by omega)

/-- Stripping never lengthens a string. -/
theorem length_stripChars_le (cs : List Char) (s : Str) :
    (stripChars cs s).length ≤ s.length := by
  unfold stripChars
  have h1 : (s.dropWhile (cs.contains ·)).length ≤ s.length :=
    (List.dropWhile_suffix _).sublist.length_le
  have h2 := (List.dropWhile_suffix
    (l := (s.dropWhile (cs.contains ·)).reverse) (cs.contains ·)).sublist.length_le
  simp only [List.length_reverse] at h2 ⊢
  omega

/-- Every character a run collapse emits is the replacement or a non-run
character of the input. -/
theorem mem_collapseRunsAux (p : Char → Bool) (rep : Char) :
    ∀ (s : Str) (b : Bool) (c : Char), c ∈ collapseRunsAux p rep b s →
      c = rep ∨ (c ∈ s ∧ p c = false) := by
  intro s
  induction s with
  | nil => intro b c h; simp [collapseRunsAux] at h
  | cons x rest ih =>
    intro b c h
    by_cases hx : p x = true
    · cases b <;> simp only [collapseRunsAux, hx, if_true] at h
      · rcases List.mem_cons.1 h with h | h
        · exact Or.inl h
        · rcases ih _ _ h with h | ⟨h1, h2⟩
          · exact Or.inl h
          · exact Or.inr ⟨List.mem_cons_of_mem _ h1, h2⟩
      · rcases ih _ _ h with h | ⟨h1, h2⟩
        · exact Or.inl h
        · exact Or.inr ⟨List.mem_cons_of_mem _ h1, h2⟩
    · simp only [collapseRunsAux, hx, if_false] at h
      rcases List.mem_cons.1 h with h | h
      · exact Or.inr ⟨h ▸ List.mem_cons_self _ _, h ▸ Bool.eq_false_iff.2 hx⟩
      · rcases ih _ _ h with h | ⟨h1, h2⟩
        · exact Or.inl h
        · exact Or.inr ⟨List.mem_cons_of_mem _ h1, h2⟩

/-- In run-absorbing state the collapse never emits a run character first. -/
theorem head_collapseRunsAux_true (p : Char → Bool) (rep : Char) :
    ∀ (s : Str) (c : Char), (collapseRunsAux p rep true s).head? = some c →
      p c = false := by
  intro s
  induction s with
  | nil => intro c h; simp [collapseRunsAux] at h
  | cons x rest ih =>
    intro c h
    by_cases hx : p x = true
    · rw [show collapseRunsAux p rep true (x :: rest)
          = collapseRunsAux p rep true rest by simp [collapseRunsAux, hx]] at h
      exact ih _ h
    · rw [show collapseRunsAux p rep true (x :: rest)
          = x :: collapseRunsAux p rep false rest by simp [collapseRunsAux, hx]] at h
      simp only [List.head?_cons, Option.some.injEq] at h
      subst h
      simpa using hx

/-- The output of a run collapse has no two adjacent run characters. -/
theorem chain'_collapseRunsAux (p : Char → Bool) (rep : Char) :
    ∀ (s : Str) (b : Bool),
      List.Chain' (fun a b => p a = false ∨ p b = false)
        (collapseRunsAux p rep b s) := by
  intro s
  induction s with
  | nil => intro b; simp [collapseRunsAux]
  | cons x rest ih =>
    intro b
    by_cases hx : p x = true
    · cases b <;> simp only [collapseRunsAux, hx, if_true]
      · exact List.chain'_cons'.2
          ⟨fun y hy => Or.inr (head_collapseRunsAux_true p rep rest y hy), ih true⟩
      · exact ih true
    · simp only [collapseRunsAux, hx, if_false]
      exact List.chain'_cons'.2
        ⟨fun y _ => Or.inl (Bool.eq_false_iff.2 hx), ih false⟩

/-- A string without adjacent run characters, all of whose run characters are
the replacement, is a fixed point of the collapse. -/
theorem collapseRunsAux_eq_self (p : Char → Bool) (rep : Char) :
    ∀ (s : Str) (b : Bool),
      List.Chain' (fun a b => p a = false ∨ p b = false) s →
      (∀ c ∈ s, p c = true → c = rep) →
      (b = true → ∀ c, s.head? = some c → p c = false) →
      collapseRunsAux p rep b s = s := by
  intro s
  induction s with
  | nil => intro b _ _ _; simp [collapseRunsAux]
  | cons x rest ih =>
    intro b hch hrep hb
    have hch' := List.chain'_cons'.1 hch
    by_cases hx : p x = true
    · have hbf : b = false := by
        cases b
        · rfl
        · exact absurd (hb rfl x rfl) (by simp [hx])
      subst hbf
      rw [show collapseRunsAux p rep false (x :: rest)
          = rep :: collapseRunsAux p rep true rest by simp [collapseRunsAux, hx]]
      have hxr : x = rep := hrep x (List.mem_cons_self _ _) hx
      rw [ih true hch'.2 (fun c hc => hrep c (List.mem_cons_of_mem _ hc))
        (fun _ c hc => by
          rcases hch'.1 c (by simpa using hc) with h | h
          · exact absurd hx (by simp [h])
          · exact h)]
      rw [hxr]
    · rw [show collapseRunsAux p rep b (x :: rest)
          = x :: collapseRunsAux p rep false rest by simp [collapseRunsAux, hx]]
      rw [ih false hch'.2 (fun c hc => hrep c (List.mem_cons_of_mem _ hc))
        (fun h => by cases h)]

/-- Dropping from the front is the identity when the head does not satisfy
the test. -/
theorem dropWhile_eq_self_of_head (q : Char → Bool) (l : Str)
    (h : ∀ c, l.head? = some c → q c = false) : l.dropWhile q = l := by
  cases l with
  | nil => rfl
  | cons x xs => simp [List.dropWhile_cons, h x rfl]

/-- The head of a front drop never satisfies the test. -/
theorem q_head_dropWhile (q : Char → Bool) (l : Str) (c : Char)
    (h : (l.dropWhile q).head? = some c) : q c = false := by
  have hh := List.head?_dropWhile_not q l
  rw [h] at hh
  exact hh

/-- A nonempty front drop ends where the whole list ends. -/
theorem getLast?_dropWhile (q : Char → Bool) (l : Str) (c : Char)
    (h : (l.dropWhile q).getLast? = some c) : l.getLast? = some c := by
  obtain ⟨t, ht⟩ := List.dropWhile_suffix (l := l) q
  have hne : l.dropWhile q ≠ [] := by
    intro hnil
    rw [hnil] at h
    cases h
  rw [← ht, List.getLast?_append_of_ne_nil _ hne]
  exact h

/-- The strip of a strip is one strip: `str.strip(cs)` is idempotent. -/
theorem stripChars_idem (cs : List Char) (s : Str) :
    stripChars cs (stripChars cs s) = stripChars cs s := by
  unfold stripChars
  have h1 : ((s.dropWhile (cs.contains ·)).reverse.dropWhile
        (cs.contains ·)).reverse.dropWhile (cs.contains ·)
      = ((s.dropWhile (cs.contains ·)).reverse.dropWhile (cs.contains ·)).reverse := by
    apply dropWhile_eq_self_of_head
    intro c hc
    rw [List.head?_reverse] at hc
    have h2 := getLast?_dropWhile _ _ _ hc
    rw [List.getLast?_eq_head?_reverse, List.reverse_reverse] at h2
    exact q_head_dropWhile _ _ c h2
  have h3 : (((s.dropWhile (cs.contains ·)).reverse.dropWhile
        (cs.contains ·)).reverse).reverse.dropWhile (cs.contains ·)
      = (s.dropWhile (cs.contains ·)).reverse.dropWhile (cs.contains ·) := by
    rw [List.reverse_reverse]
    exact dropWhile_eq_self_of_head _ _ (fun c hc => q_head_dropWhile _ _ c hc)
  rw [h1, h3]

/-- The strip of a string is a contiguous part of it. -/
theorem stripChars_part (cs : List Char) (s : Str) : stripChars cs s <:+: s := by
  unfold stripChars
  obtain ⟨t1, ht1⟩ := List.dropWhile_suffix (l := s) (cs.contains ·)
  obtain ⟨t2, ht2⟩ :=
    List.dropWhile_suffix (l := (s.dropWhile (cs.contains ·)).reverse) (cs.contains ·)
  refine ⟨t1, t2.reverse, ?_⟩
  have h4 : ((s.dropWhile (cs.contains ·)).reverse.dropWhile (cs.contains ·)).reverse
        ++ t2.reverse
      = s.dropWhile (cs.contains ·) := by
    have h5 := congrArg List.reverse ht2
    simpa using h5
  rw [List.append_assoc, h4, ht1]

/-- Every character the invalid-character replacement emits is clean. -/
theorem mem_map_replInvalid (s : Str) :
    ∀ c ∈ s.map (fun c => if isFsInvalid c then '-' else c),
      isFsInvalid c = false := by
  intro c hc
  rcases List.mem_map.1 hc with ⟨d, _, hd⟩
  by_cases hdi : isFsInvalid d = true
  · rw [if_pos hdi] at hd
    subst hd
    decide
  · rw [if_neg hdi] at hd
    subst hd
    simpa using hdi

/-- When the truncation threshold is not reached, the sanitizer is just the
replace/collapse/strip pipeline. -/
theorem sanitize_filename_no_trunc (s : Str) (h : s.length ≤ 200) :
    sanitize_filename s
      = stripChars ['.', ' '] (collapseRuns isWsOrHyphen '-'
          (s.map (fun c => if isFsInvalid c then '-' else c))) := by
  have l2 := length_collapseRunsAux_le isWsOrHyphen '-'
    (s.map (fun c => if isFsInvalid c then '-' else c)) false
  have l3 := length_stripChars_le ['.', ' ']
    (collapseRuns isWsOrHyphen '-' (s.map (fun c => if isFsInvalid c then '-' else c)))
  simp only [sanitize_filename, collapseRuns] at l3 ⊢
  rw [if_neg (by simp only [List.length_map] at l2; omega)]

/-- C2, amended: the sanitizer is idempotent on every input that does not
trigger the 200-character truncation — in particular on every input of length
at most 200.  (The unamended claim fails: truncation can cut the string right
after a dot that a second pass then strips; see the counterexample.) -/
theorem c2_sanitize_idempotent_of_short (s : Str) (h : s.length ≤ 200) :
    sanitize_filename (sanitize_filename s) = sanitize_filename s := by
  have hyy := sanitize_filename_no_trunc s h
  set s1 := s.map (fun c => if isFsInvalid c then '-' else c) with hs1
  set s2 := collapseRuns isWsOrHyphen '-' s1 with hs2
  set y := stripChars ['.', ' '] s2 with hy2
  have hylen : y.length ≤ 200 := by
    have l2 := length_collapseRunsAux_le isWsOrHyphen '-' s1 false
    have l3 := length_stripChars_le ['.', ' '] s2
    rw [show collapseRunsAux isWsOrHyphen '-' false s1 = s2 from rfl] at l2
    have l1 : s1.length = s.length := List.length_map _ _
    rw [hy2]
    omega
  have hmem2 : ∀ c ∈ y, c = '-' ∨ (isWsOrHyphen c = false ∧ isFsInvalid c = false) := by
    intro c hc
    have hc2 : c ∈ s2 := (stripChars_part _ _).subset hc
    rcases mem_collapseRunsAux _ _ _ _ c hc2 with h | ⟨h1, h2⟩
    · exact Or.inl h
    · exact Or.inr ⟨h2, mem_map_replInvalid s c h1⟩
  have hmap : y.map (fun c => if isFsInvalid c then '-' else c) = y := by
    have := List.map_congr_left (l := y)
      (f := fun c => if isFsInvalid c then '-' else c) (g := id) ?_
    · simpa using this
    · intro c hc
      rcases hmem2 c hc with h | ⟨_, h2⟩
      · subst h; decide
      · simp [h2]
  have hcollapse : collapseRuns isWsOrHyphen '-' y = y := by
    apply collapseRunsAux_eq_self
    · exact List.Chain'.infix
        (chain'_collapseRunsAux isWsOrHyphen '-' s1 false) (stripChars_part _ _)
    · intro c hc hp
      rcases hmem2 c hc with h | ⟨h1, _⟩
      · exact h
      · rw [hp] at h1; cases h1
    · intro hfalse; cases hfalse
  have hstrip : stripChars ['.', ' '] y = y := by
    rw [hy2]
    exact stripChars_idem _ _
  rw [hyy]
  simp only [sanitize_filename, hmap, hcollapse, hstrip]
  rw [if_neg (by omega)]

/-- Witness for the amended C2 at a concrete short input. -/
theorem c2_sanitize_idempotent_of_short_witness :
    ("My file: <draft?>.txt".toList.length ≤ 200) ∧
    sanitize_filename (sanitize_filename "My file: <draft?>.txt".toList)
      = sanitize_filename "My file: <draft?>.txt".toList :=
  ⟨by decide, c2_sanitize_idempotent_of_short _ (by decide)⟩

/-- C2 counterexample: on a 201-character input ending in a dot-letter pair,
the truncation leaves a trailing dot that a second sanitizer pass strips, so
the sanitizer is not idempotent as claimed. -/
theorem c2_counterexample :
    sanitize_filename (sanitize_filename (List.replicate 199 'a' ++ ['.', 'b']))
      ≠ sanitize_filename (List.replicate 199 'a' ++ ['.', 'b']) := by
  decide

/-! ### Filename post-processing (claim C3) -/


/-- Unfolding equation of the right fold. -/
theorem collapseHyphensFold_cons (c : Char) (s : Str) :
    collapseHyphensFold (c :: s)
      = if c = '-' ∧ (collapseHyphensFold s).head? = some '-'
          then collapseHyphensFold s else c :: collapseHyphensFold s := rfl

/-- The fold keeps the first character of its input in front. -/
theorem head?_collapseHyphensFold (c : Char) (s : Str) :
    (collapseHyphensFold (c :: s)).head? = some c := by
  rw [collapseHyphensFold_cons]
  by_cases h : c = '-' ∧ (collapseHyphensFold s).head? = some '-'
  · rw [if_pos h, h.2, h.1]
  · rw [if_neg h]
    rfl

/-- The fold absorbs a whole leading hyphen run into one hyphen. -/
theorem collapseHyphensFold_cons_hyphen : ∀ s : Str,
    collapseHyphensFold ('-' :: s)
      = '-' :: collapseHyphensFold (s.dropWhile (fun c => c = '-')) := by
  intro s
  induction s with
  | nil => rfl
  | cons c r ih =>
    by_cases hc : c = '-'
    · subst hc
      rw [collapseHyphensFold_cons ('-') ('-' :: r),
        if_pos ⟨rfl, head?_collapseHyphensFold '-' r⟩, ih]
      simp [List.dropWhile_cons]
    · rw [collapseHyphensFold_cons '-' (c :: r),
        if_neg (fun hcontra => hc (Option.some.inj
          ((head?_collapseHyphensFold c r).symm.trans hcontra.2)))]
      rw [show (c :: r).dropWhile (fun c => c = '-') = c :: r by
        simp [List.dropWhile_cons, hc]]

/-- The state-machine collapse of hyphen runs agrees with the right fold; the
flag corresponds to a pending leading-run drop. -/
theorem collapseRunsAux_hyphen_fold : ∀ s : Str,
    collapseRunsAux (fun c => c = '-') '-' false s = collapseHyphensFold s ∧
    collapseRunsAux (fun c => c = '-') '-' true s
      = collapseHyphensFold (s.dropWhile (fun c => c = '-')) := by
  intro s
  induction s with
  | nil => exact ⟨rfl, rfl⟩
  | cons c r ih =>
    constructor
    · by_cases hc : c = '-'
      · subst hc
        rw [show collapseRunsAux (fun c => c = '-') '-' false ('-' :: r)
            = '-' :: collapseRunsAux (fun c => c = '-') '-' true r by
              simp [collapseRunsAux]]
        rw [ih.2, collapseHyphensFold_cons_hyphen]
      · rw [show collapseRunsAux (fun c => c = '-') '-' false (c :: r)
            = c :: collapseRunsAux (fun c => c = '-') '-' false r by
              simp [collapseRunsAux, hc]]
        rw [ih.1, collapseHyphensFold_cons,
          if_neg (fun hcontra => hc hcontra.1)]
    · by_cases hc : c = '-'
      · subst hc
        rw [show collapseRunsAux (fun c => c = '-') '-' true ('-' :: r)
            = collapseRunsAux (fun c => c = '-') '-' true r by
              simp [collapseRunsAux]]
        rw [ih.2]
        simp [List.dropWhile_cons]
      · rw [show collapseRunsAux (fun c => c = '-') '-' true (c :: r)
            = c :: collapseRunsAux (fun c => c = '-') '-' false r by
              simp [collapseRunsAux, hc]]
        rw [show (c :: r).dropWhile (fun c => c = '-') = c :: r by
          simp [List.dropWhile_cons, hc]]
        rw [ih.1, collapseHyphensFold_cons,
          if_neg (fun hcontra => hc hcontra.1)]

/-- The collapse of hyphen runs agrees with the right fold. -/
theorem collapseRuns_hyphen_eq_fold (s : Str) :
    collapseRuns (fun c => c = '-') '-' s = collapseHyphensFold s :=
  (collapseRunsAux_hyphen_fold s).1



/-- C3 counterexample: the code keeps underscores (Python word characters),
the claim's alphanumerics-or-hyphen rule would replace them. -/
theorem c3_counterexample :
    generateFilenamePost "a_b".toList = "a_b".toList ∧
    claimFilenamePost "a_b".toList = "a-b".toList ∧
    generateFilenamePost "a_b".toList ≠ claimFilenamePost "a_b".toList := by
  refine ⟨by decide, by decide, by decide⟩

/-- C3, amended: the post-processing strips surrounding quotes, replaces every
character outside word characters (alphanumerics or underscore) and hyphen by
a hyphen, collapses repeated hyphens, trims leading/trailing hyphens, and
substitutes "untitled" for an empty result. -/
theorem c3_post_processing_amended (s : Str) :
    generateFilenamePost s = specFilenamePostAmended s := by
  simp only [generateFilenamePost, specFilenamePostAmended, pyWordChar,
    Char.isAlphanum]
  rw [collapseRuns_hyphen_eq_fold]

/-! ### Claim C9: the empty-sanitized branch is unreachable in name mode -/

/-- The post-processing never returns the empty string. -/
theorem generateFilenamePost_ne_nil (s : Str) : generateFilenamePost s ≠ [] := by
  simp only [generateFilenamePost]
  split
  · decide
  · assumption

/-- Every character the word-character replacement emits is a word character
or a hyphen. -/
theorem mem_map_replWord (s : Str) :
    ∀ c ∈ s.map (fun c => if pyWordChar c || c = '-' then c else '-'),
      (pyWordChar c || c = '-') = true := by
  intro c hc
  rcases List.mem_map.1 hc with ⟨d, _, hd⟩
  by_cases h : (pyWordChar d || d = '-') = true
  · rw [if_pos h] at hd
    subst hd
    exact h
  · rw [if_neg h] at hd
    subst hd
    decide

/-- Every character of the post-processed filename is a word character or a
hyphen. -/
theorem mem_generateFilenamePost (s : Str) :
    ∀ c ∈ generateFilenamePost s, (pyWordChar c || c = '-') = true := by
  intro c hc
  simp only [generateFilenamePost] at hc
  split at hc
  · revert hc
    revert c
    decide
  · have hc3 := (stripChars_part _ _).subset hc
    rcases mem_collapseRunsAux _ _ _ _ c hc3 with h | ⟨h1, _⟩
    · subst h
      decide
    · exact mem_map_replWord _ c h1

/-- A word character or hyphen is not an invalid filesystem character. -/
theorem wordHyphen_not_invalid (c : Char)
    (h : (pyWordChar c || c = '-') = true) : isFsInvalid c = false := by
  by_cases hi : isFsInvalid c = true
  · simp only [isFsInvalid, Bool.or_eq_true, decide_eq_true_eq] at hi
    rcases hi with ((((((((h1|h1)|h1)|h1)|h1)|h1)|h1)|h1)|h1) <;> subst h1 <;>
      exact absurd h (by decide)
  · simpa using hi

/-- A word character or hyphen is neither a dot nor a space. -/
theorem wordHyphen_not_dotSpace (c : Char)
    (h : (pyWordChar c || c = '-') = true) :
    (['.', ' '].contains c) = false := by
  by_cases hd : c = '.'
  · subst hd
    cases h
  · by_cases hs : c = ' '
    · subst hs
      cases h
    · simp [List.contains_eq_any_beq, hd, hs]

/-- A word character or hyphen that is not a hyphen is not collapsed. -/
theorem wordHyphen_not_ws (c : Char)
    (h : (pyWordChar c || c = '-') = true) (hh : isWsOrHyphen c = true) :
    c = '-' := by
  simp only [isWsOrHyphen, Bool.or_eq_true, decide_eq_true_eq] at hh
  rcases hh with h1 | h1
  · simp only [isPySpace, Bool.or_eq_true, decide_eq_true_eq] at h1
    rcases h1 with (((((h2|h2)|h2)|h2)|h2)|h2) <;> subst h2 <;>
      exact absurd h (by decide)
  · exact h1

/-- A run collapse of a nonempty string is nonempty. -/
theorem collapseRuns_ne_nil (p : Char → Bool) (rep : Char) (s : Str)
    (h : s ≠ []) : collapseRuns p rep s ≠ [] := by
  cases s with
  | nil => exact absurd rfl h
  | cons c r =>
    by_cases hc : p c = true <;> simp [collapseRuns, collapseRunsAux, hc]

/-- Stripping characters that never occur is the identity. -/
theorem stripChars_eq_self (cs : List Char) (s : Str)
    (h : ∀ c ∈ s, cs.contains c = false) : stripChars cs s = s := by
  unfold stripChars
  have h1 : s.dropWhile (cs.contains ·) = s :=
    dropWhile_eq_self_of_head _ _
      (fun c hc => h c (List.mem_of_mem_head? (Option.mem_def.mpr hc)))
  rw [h1]
  have h2 : s.reverse.dropWhile (cs.contains ·) = s.reverse :=
    dropWhile_eq_self_of_head _ _
      (fun c hc => h c (by
        have hm := List.mem_of_mem_head? (Option.mem_def.mpr hc)
        simpa using hm))
  rw [h2, List.reverse_reverse]

/-- Sanitizing any post-processed filename gives a nonempty string. -/
theorem sanitize_post_ne_nil (raw : Str) :
    sanitize_filename (generateFilenamePost raw) ≠ [] := by
  have hne := generateFilenamePost_ne_nil raw
  have hchars := mem_generateFilenamePost raw
  have hmap : (generateFilenamePost raw).map
      (fun c => if isFsInvalid c then '-' else c) = generateFilenamePost raw := by
    have h0 := List.map_congr_left (l := generateFilenamePost raw)
      (f := fun c => if isFsInvalid c then '-' else c) (g := id)
      (fun c hc => by
        show (if isFsInvalid c = true then '-' else c) = c
        rw [if_neg (by simp [wordHyphen_not_invalid c (hchars c hc)])])
    simpa using h0
  have hcoll_ne : collapseRuns isWsOrHyphen '-' (generateFilenamePost raw) ≠ [] :=
    collapseRuns_ne_nil _ _ _ hne
  have hcoll_chars : ∀ c ∈ collapseRuns isWsOrHyphen '-' (generateFilenamePost raw),
      (['.', ' '].contains c) = false := by
    intro c hc
    rcases mem_collapseRunsAux _ _ _ _ c hc with h | ⟨h1, _⟩
    · subst h
      decide
    · exact wordHyphen_not_dotSpace c (hchars c h1)
  have hstrip := stripChars_eq_self ['.', ' '] _ hcoll_chars
  simp only [sanitize_filename, hmap, hstrip]
  split
  · simp [List.take_eq_nil_iff, hcoll_ne]
  · exact hcoll_ne

/-- A successful attempt cycle only returns transformed raw responses. -/
theorem tryAttempts_fst_range (gw : Nat → AttemptOutcome) (tf : Str → Str) :
    ∀ (n c : Nat) (le : Option Str),
      (tryAttempts gw tf c n le).1 = none ∨
      ∃ raw, (tryAttempts gw tf c n le).1 = some (tf raw) := by
  intro n
  induction n with
  | zero => intro c le; left; rfl
  | succ n ih =>
    intro c le
    cases hg : gw c with
    | success raw =>
      right
      exact ⟨raw, by simp [tryAttempts, hg]⟩
    | failure e =>
      rcases ih (c + 1) (some e) with h | ⟨raw, h⟩
      · left
        simp [tryAttempts, hg, h]
      · right
        exact ⟨raw, by simp [tryAttempts, hg, h]⟩

/-- The controller terminates resolved with a transformed raw response,
skipped, or aborted. -/
theorem controllerLoop_outcome_cases (gw : Nat → AttemptOutcome) (tf : Str → Str) :
    ∀ (chs : List Choice) (c : Nat) (le : Option Str),
      (∃ raw, (controllerLoop gw tf chs c le).outcome = .resolved (tf raw)) ∨
      (∃ e, (controllerLoop gw tf chs c le).outcome = .skipped e) ∨
      (∃ e, (controllerLoop gw tf chs c le).outcome = .aborted e) := by
  intro chs
  induction chs with
  | nil =>
    intro c le
    rcases htry : tryAttempts gw tf c 3 le with ⟨r, u, le'⟩
    cases r with
    | none =>
      right; right
      exact ⟨optStr le', by rw [controllerLoop, htry]⟩
    | some t' =>
      left
      have hrange := tryAttempts_fst_range gw tf 3 c le
      rw [htry] at hrange
      rcases hrange with hn | ⟨raw, hs⟩
      · cases hn
      · simp only at hs
        refine ⟨raw, ?_⟩
        rw [controllerLoop, htry]
        simpa using hs
  | cons ch rest ih =>
    intro c le
    rcases htry : tryAttempts gw tf c 3 le with ⟨r, u, le'⟩
    cases r with
    | some t' =>
      left
      have hrange := tryAttempts_fst_range gw tf 3 c le
      rw [htry] at hrange
      rcases hrange with hn | ⟨raw, hs⟩
      · cases hn
      · simp only at hs
        refine ⟨raw, ?_⟩
        rw [controllerLoop, htry]
        simpa using hs
    | none =>
      cases ch with
      | abort =>
        right; right
        exact ⟨optStr le', by rw [controllerLoop, htry]⟩
      | skip =>
        right; left
        exact ⟨optStr le', by rw [controllerLoop, htry]⟩
      | retry =>
        rcases ih (c + u) le' with ⟨raw, h⟩ | ⟨e, h⟩ | ⟨e, h⟩
        · left
          exact ⟨raw, by rw [controllerLoop, htry]; simpa using h⟩
        · right; left
          exact ⟨e, by rw [controllerLoop, htry]; simpa using h⟩
        · right; right
          exact ⟨e, by rw [controllerLoop, htry]; simpa using h⟩

/-- With a nonempty sanitized name, the rename finalization never reports the
empty-name error. -/
theorem finalizeRename_not_empty (dir : List Str) (origName ext t : Str)
    (renameErr : Option Str) (hs : sanitize_filename t ≠ []) :
    (finalizeRename dir origName ext t renameErr).1 ≠ .emptySanitized := by
  simp only [finalizeRename]
  rw [if_neg hs]
  split
  · simp
  · split <;> [simp; split <;> simp]

/-- C9: sanitizing the name-task post-processing output always yields a
nonempty string, so the empty-sanitized-name error branch of the batch driver
is unreachable in name mode: no file processed in name mode ever has the
empty-sanitized outcome. -/
theorem c9_empty_sanitized_unreachable :
    (∀ raw, sanitize_filename (generateFilenamePost raw) ≠ []) ∧
    ∀ (gw : Nat → AttemptOutcome) (renameErr : Option Str) (dir : List Str)
      (f : FileEntry) (chs : List Choice) (c : Nat),
      (processFile .rename gw renameErr dir f chs c).outcome
        ≠ .emptySanitized := by
  refine ⟨sanitize_post_ne_nil, ?_⟩
  intro gw renameErr dir f chs c
  rcases controllerLoop_outcome_cases gw (taskTransform .rename) chs c none with
    ⟨raw, h⟩ | ⟨e, h⟩ | ⟨e, h⟩ <;> simp only [processFile, h]
  · exact finalizeRename_not_empty _ _ _ _ _
      (sanitize_post_ne_nil (stripPyWs raw))
  · simp
  · simp

/-! ### Claim C8: the Filename Classifier -/

/-- Soundness and completeness of the case-insensitive literal matcher. -/
theorem ciEat_eq_some (pat : Str) : ∀ (s r : Str),
    ciEat pat s = some r ↔
      ∃ w, s = w ++ r ∧ w.map Char.toLower = pat.map Char.toLower := by
  induction pat with
  | nil =>
    intro s r
    simp only [ciEat, Option.some.injEq, List.map_nil, List.map_eq_nil_iff]
    constructor
    · intro h
      exact ⟨[], by simp [h], rfl⟩
    · rintro ⟨w, hsw, hw⟩
      subst hw
      simpa using hsw
  | cons p ps ih =>
    intro s r
    cases s with
    | nil =>
      simp only [ciEat]
      constructor
      · intro h; cases h
      · rintro ⟨w, hsw, hw⟩
        rcases w with _ | ⟨d, w₂⟩
        · cases hw
        · cases hsw
    | cons c cs =>
      constructor
      · intro h
        rw [show ciEat (p :: ps) (c :: cs)
            = if c.toLower = p.toLower then ciEat ps cs else none from rfl] at h
        by_cases hc : c.toLower = p.toLower
        · rw [if_pos hc] at h
          rcases (ih cs r).mp h with ⟨w₂, hsw, hw⟩
          exact ⟨c :: w₂, by simp [hsw], by simp [hw, hc]⟩
        · rw [if_neg hc] at h
          cases h
      · rintro ⟨w, hsw, hw⟩
        rcases w with _ | ⟨d, w₂⟩
        · cases hw
        · simp only [List.map_cons, List.cons.injEq] at hw
          simp only [List.cons_append, List.cons.injEq] at hsw
          rw [show ciEat (p :: ps) (c :: cs)
              = if c.toLower = p.toLower then ciEat ps cs else none from rfl]
          rw [if_pos (by rw [hsw.1]; exact hw.1)]
          exact (ih cs r).mpr ⟨w₂, hsw.2, hw.2⟩

/-- Soundness and completeness of the digit-run matcher. -/
theorem digitsEat_eq_some : ∀ (n : Nat) (s r : Str),
    digitsEat n s = some r ↔
      ∃ d, s = d ++ r ∧ d.length = n ∧ ∀ c ∈ d, c.isDigit = true := by
  intro n
  induction n with
  | zero =>
    intro s r
    simp only [digitsEat, Option.some.injEq]
    constructor
    · intro h
      exact ⟨[], by simp [h], rfl, by simp⟩
    · rintro ⟨d, hsw, hl, _⟩
      rw [List.length_eq_zero] at hl
      subst hl
      simpa using hsw
  | succ n ih =>
    intro s r
    cases s with
    | nil =>
      simp only [digitsEat]
      constructor
      · intro h; cases h
      · rintro ⟨d, hsw, hl, _⟩
        rcases d with _ | ⟨x, d₂⟩
        · cases hl
        · cases hsw
    | cons c cs =>
      constructor
      · intro h
        rw [show digitsEat (n + 1) (c :: cs)
            = if c.isDigit then digitsEat n cs else none from rfl] at h
        by_cases hc : c.isDigit = true
        · rw [if_pos hc] at h
          rcases (ih cs r).mp h with ⟨d₂, hsw, hl, hdig⟩
          refine ⟨c :: d₂, by simp [hsw], by simp [hl], ?_⟩
          intro x hx
          rcases List.mem_cons.1 hx with hx | hx
          · subst hx; exact hc
          · exact hdig x hx
        · rw [if_neg (by simpa using hc)] at h
          cases h
      · rintro ⟨d, hsw, hl, hdig⟩
        rcases d with _ | ⟨x, d₂⟩
        · cases hl
        · simp only [List.cons_append, List.cons.injEq] at hsw
          rw [show digitsEat (n + 1) (c :: cs)
              = if c.isDigit then digitsEat n cs else none from rfl]
          rw [if_pos (hsw.1 ▸ hdig x (List.mem_cons_self _ _))]
          refine (ih cs r).mpr ⟨d₂, hsw.2, by simpa using hl, ?_⟩
          exact fun y hy => hdig y (List.mem_cons_of_mem _ hy)

/-- Soundness and completeness of the literal-character matcher. -/
theorem litEat_eq_some (c : Char) (s r : Str) :
    litEat c s = some r ↔ s = c :: r := by
  cases s with
  | nil => simp [litEat]
  | cons d ds =>
    by_cases hd : d = c
    · subst hd
      simp [litEat]
    · rw [show litEat c (d :: ds) = if d = c then some ds else none from rfl,
        if_neg hd]
      simp [hd]



/-- The classifier regex accepts a stem exactly when it has the (amended)
screenshot shape. -/
theorem is_macos_screenshot_iff (stem : Str) :
    is_macos_screenshot_filename stem = true ↔ ScreenshotShapeCI stem := by
  have hpat1 : "Screenshot ".toList.map Char.toLower = "screenshot ".toList := by
    decide
  have hpat2 : " at ".toList.map Char.toLower = " at ".toList := by decide
  unfold is_macos_screenshot_filename ScreenshotShapeCI
  rw [Option.isSome_iff_exists]
  constructor
  · rintro ⟨rest, h⟩
    simp only [Option.bind_eq_some] at h
    obtain ⟨r11, ⟨r10, ⟨r9, ⟨r8, ⟨r7, ⟨r6, ⟨r5, ⟨r4, ⟨r3, ⟨r2, ⟨r1, h1, h2⟩,
      h3⟩, h4⟩, h5⟩, h6⟩, h7⟩, h8⟩, h9⟩, h10⟩, h11⟩, h12⟩ := h
    rcases (ciEat_eq_some _ _ _).mp h1 with ⟨w, hs1, hw⟩
    rcases (digitsEat_eq_some _ _ _).mp h2 with ⟨d1, hs2, hld1, hdd1⟩
    have hs3 := (litEat_eq_some _ _ _).mp h3
    rcases (digitsEat_eq_some _ _ _).mp h4 with ⟨d2, hs4, hld2, hdd2⟩
    have hs5 := (litEat_eq_some _ _ _).mp h5
    rcases (digitsEat_eq_some _ _ _).mp h6 with ⟨d3, hs6, hld3, hdd3⟩
    rcases (ciEat_eq_some _ _ _).mp h7 with ⟨a, hs7, ha⟩
    rcases (digitsEat_eq_some _ _ _).mp h8 with ⟨t1, hs8, hlt1, hdt1⟩
    have hs9 := (litEat_eq_some _ _ _).mp h9
    rcases (digitsEat_eq_some _ _ _).mp h10 with ⟨t2, hs10, hlt2, hdt2⟩
    have hs11 := (litEat_eq_some _ _ _).mp h11
    rcases (digitsEat_eq_some _ _ _).mp h12 with ⟨t3, hs12, hlt3, hdt3⟩
    refine ⟨w, d1, d2, d3, a, t1, t2, t3, rest, ?_, by rw [hw, hpat1],
      by rw [ha, hpat2], ⟨hld1, hdd1⟩, ⟨hld2, hdd2⟩, ⟨hld3, hdd3⟩,
      ⟨hlt1, hdt1⟩, ⟨hlt2, hdt2⟩, ⟨hlt3, hdt3⟩⟩
    rw [hs1, hs2, hs3, hs4, hs5, hs6, hs7, hs8, hs9, hs10, hs11, hs12]
    simp [List.append_assoc]
  · rintro ⟨w, d1, d2, d3, a, t1, t2, t3, rest, hstem, hw, ha, hd1, hd2, hd3,
      ht1, ht2, ht3⟩
    subst hstem
    refine ⟨rest, ?_⟩
    rw [show ciEat "Screenshot ".toList
        (w ++ d1 ++ '-' :: d2 ++ '-' :: d3 ++ a ++ t1 ++ '.' :: t2
          ++ '.' :: t3 ++ rest)
        = some (d1 ++ '-' :: d2 ++ '-' :: d3 ++ a ++ t1 ++ '.' :: t2
          ++ '.' :: t3 ++ rest) from
      (ciEat_eq_some _ _ _).mpr ⟨w, by simp, by rw [hw, hpat1]⟩]
    rw [Option.some_bind]
    rw [show digitsEat 4 (d1 ++ '-' :: d2 ++ '-' :: d3 ++ a ++ t1 ++ '.' :: t2
          ++ '.' :: t3 ++ rest)
        = some ('-' :: d2 ++ '-' :: d3 ++ a ++ t1 ++ '.' :: t2
          ++ '.' :: t3 ++ rest) from
      (digitsEat_eq_some _ _ _).mpr ⟨d1, by simp, hd1.1, hd1.2⟩]
    rw [Option.some_bind]
    rw [show litEat '-' ('-' :: d2 ++ '-' :: d3 ++ a ++ t1 ++ '.' :: t2
          ++ '.' :: t3 ++ rest)
        = some (d2 ++ '-' :: d3 ++ a ++ t1 ++ '.' :: t2 ++ '.' :: t3 ++ rest)
        from (litEat_eq_some _ _ _).mpr rfl]
    rw [Option.some_bind]
    rw [show digitsEat 2 (d2 ++ '-' :: d3 ++ a ++ t1 ++ '.' :: t2
          ++ '.' :: t3 ++ rest)
        = some ('-' :: d3 ++ a ++ t1 ++ '.' :: t2 ++ '.' :: t3 ++ rest) from
      (digitsEat_eq_some _ _ _).mpr ⟨d2, by simp, hd2.1, hd2.2⟩]
    rw [Option.some_bind]
    rw [show litEat '-' ('-' :: d3 ++ a ++ t1 ++ '.' :: t2 ++ '.' :: t3 ++ rest)
        = some (d3 ++ a ++ t1 ++ '.' :: t2 ++ '.' :: t3 ++ rest) from
      (litEat_eq_some _ _ _).mpr rfl]
    rw [Option.some_bind]
    rw [show digitsEat 2 (d3 ++ a ++ t1 ++ '.' :: t2 ++ '.' :: t3 ++ rest)
        = some (a ++ t1 ++ '.' :: t2 ++ '.' :: t3 ++ rest) from
      (digitsEat_eq_some _ _ _).mpr ⟨d3, by simp, hd3.1, hd3.2⟩]
    rw [Option.some_bind]
    rw [show ciEat " at ".toList (a ++ t1 ++ '.' :: t2 ++ '.' :: t3 ++ rest)
        = some (t1 ++ '.' :: t2 ++ '.' :: t3 ++ rest) from
      (ciEat_eq_some _ _ _).mpr ⟨a, by simp, by rw [ha, hpat2]⟩]
    rw [Option.some_bind]
    rw [show digitsEat 2 (t1 ++ '.' :: t2 ++ '.' :: t3 ++ rest)
        = some ('.' :: t2 ++ '.' :: t3 ++ rest) from
      (digitsEat_eq_some _ _ _).mpr ⟨t1, by simp, ht1.1, ht1.2⟩]
    rw [Option.some_bind]
    rw [show litEat '.' ('.' :: t2 ++ '.' :: t3 ++ rest)
        = some (t2 ++ '.' :: t3 ++ rest) from (litEat_eq_some _ _ _).mpr rfl]
    rw [Option.some_bind]
    rw [show digitsEat 2 (t2 ++ '.' :: t3 ++ rest)
        = some ('.' :: t3 ++ rest) from
      (digitsEat_eq_some _ _ _).mpr ⟨t2, by simp, ht2.1, ht2.2⟩]
    rw [Option.some_bind]
    rw [show litEat '.' ('.' :: t3 ++ rest) = some (t3 ++ rest) from
      (litEat_eq_some _ _ _).mpr rfl]
    rw [Option.some_bind]
    exact (digitsEat_eq_some _ _ _).mpr ⟨t3, rfl, ht3.1, ht3.2⟩

/-- C8, amended: the Classifier accepts a file exactly when its lowercased
extension is in the fixed image-extension set and its stem has the screenshot
shape with both "Screenshot" and " at " matched case-insensitively. -/
theorem c8_classifier_amended (f : FileEntry) :
    eligibleFile f = true ↔
      lowerStr f.ext ∈ image_extensions ∧ ScreenshotShapeCI f.stem := by
  unfold eligibleFile
  rw [Bool.and_eq_true, is_macos_screenshot_iff]
  constructor
  · rintro ⟨h1, h2⟩
    refine ⟨?_, h2⟩
    simpa [List.contains, List.elem_eq_mem] using h1
  · rintro ⟨h1, h2⟩
    refine ⟨?_, h2⟩
    simpa [List.contains, List.elem_eq_mem] using h1

/-- C8 counterexample: the code's ignore-case regex also matches " AT " as
separator, which the claim's literal " at " shape excludes; the file is
accepted by the code although it is not of the claim's shape. -/
theorem c8_counterexample :
    eligibleFile ⟨"Screenshot 2024-01-02 AT 10.20.30".toList, ".png".toList⟩
      = true ∧
    claimScreenshotMatcher "Screenshot 2024-01-02 AT 10.20.30".toList
      = false := by
  refine ⟨by decide, by decide⟩

/-! ### Claim C4: the Rename Resolver's probe sequence -/

/-- A probe that hits a conflicting candidate moves to the next numbered
variant. -/
theorem resolveLoop_conflict_step (dir : List Str) (orig base ext : Str)
    (k : Nat) (cand : Str) (hk : k ≤ 1000)
    (hc : conflictsWith dir orig cand = true) :
    resolveLoop dir orig base ext k cand
      = resolveLoop dir orig base ext (k + 1) (numberedName base k ext) := by
  rw [resolveLoop, dif_pos hk]
  unfold conflictsWith at hc
  by_cases he : fsExists dir cand = true
  · rw [if_pos he] at hc ⊢
    rw [if_neg (by simpa using hc)]
  · rw [if_neg (by simpa using he)] at hc ⊢
    rw [if_pos hc]

/-- A probe that hits a conflict-free candidate accepts it. -/
theorem resolveLoop_accept (dir : List Str) (orig base ext : Str)
    (k : Nat) (cand : Str) (hk : k ≤ 1000)
    (hc : conflictsWith dir orig cand = false) :
    resolveLoop dir orig base ext k cand = some cand := by
  rw [resolveLoop, dif_pos hk]
  unfold conflictsWith at hc
  by_cases he : fsExists dir cand = true
  · rw [if_pos he] at hc ⊢
    rw [if_pos (by simpa using hc)]
  · rw [if_neg (by simpa using he)] at hc ⊢
    rw [if_neg (by simp [hc])]

/-- The collision loop from counter `k` on candidate `k - 1` returns the
first conflict-free candidate among the indices `k - 1 … 999`, and `none`
when they all conflict. -/
theorem resolveLoop_eq_find (dir : List Str) (orig base ext : Str) :
    ∀ (n k : Nat), k + n = 1001 → 1 ≤ k →
      resolveLoop dir orig base ext k (candidateName base ext (k - 1))
        = ((List.range' (k - 1) n).find?
            (fun i => !conflictsWith dir orig (candidateName base ext i))).map
            (candidateName base ext) := by
  intro n
  induction n with
  | zero =>
    intro k hk h1
    rw [resolveLoop, dif_neg (by omega)]
    simp
  | succ n ih =>
    intro k hk h1
    have hk1000 : k ≤ 1000 := by omega
    rw [List.range'_succ]
    by_cases hc : conflictsWith dir orig (candidateName base ext (k - 1)) = true
    · rw [resolveLoop_conflict_step dir orig base ext k _ hk1000 hc]
      rw [show numberedName base k ext = candidateName base ext (k + 1 - 1) by
        rw [candidateName, if_neg (by omega)]
        simp]
      rw [ih (k + 1) (by omega) (by omega)]
      rw [List.find?_cons_of_neg _ (by simp [hc])]
      rw [show k - 1 + 1 = k + 1 - 1 from by omega]
    · rw [resolveLoop_accept dir orig base ext k _ hk1000
        (by simpa using hc)]
      rw [List.find?_cons_of_pos _ (by simp [hc])]
      rfl

/-- The Rename Resolver returns the first conflict-free candidate among the
plain name and the numbered variants 1 … 999, and gives up when all 1000
probed candidates conflict. -/
theorem resolveRename_eq_find (dir : List Str) (orig base ext : Str) :
    resolveRename dir orig base ext
      = ((List.range 1000).find?
          (fun i => !conflictsWith dir orig (candidateName base ext i))).map
          (candidateName base ext) := by
  have h := resolveLoop_eq_find dir orig base ext 1000 1 (by omega) (by omega)
  rw [show candidateName base ext (1 - 1) = base ++ ext from by
    rw [candidateName, if_pos (by omega)]] at h
  rw [resolveRename, h, List.range_eq_range']

/-- C4, amended: for a desired base name not case-insensitively equal to the
original file's name, the Rename Resolver probes the plain candidate and then
up to 999 numbered variants (base-1.ext … base-999.ext), accepting the first
candidate such that either no file exists at that exact path and no existing
file matches it case-insensitively, or the exact path resolves to the
original file itself; it yields GiveUp exactly when all 1000 probed
candidates conflict.  (The numbered variant base-1000.ext, which the claim's
"up to 1000 numbered variants" would include, is never probed; see the
counterexample.) -/
theorem c4_resolver_amended (dir : List Str) (orig base ext : Str)
    (hpre : lowerStr (base ++ ext) ≠ lowerStr orig) :
    (resolveRename dir orig base ext
      = ((List.range 1000).find?
          (fun i => !conflictsWith dir orig (candidateName base ext i))).map
          (candidateName base ext)) ∧
    (resolveRename dir orig base ext = none ↔
      (List.range 1000).all
        (fun i => conflictsWith dir orig (candidateName base ext i)) = true) := by
  refine ⟨resolveRename_eq_find dir orig base ext, ?_⟩
  rw [resolveRename_eq_find]
  simp [List.find?_eq_none, List.all_eq_true]

/-- Witness for the amended C4 at a concrete directory. -/
theorem c4_resolver_amended_witness :
    (lowerStr ("photo".toList ++ ".jpg".toList) ≠ lowerStr "orig.jpg".toList) ∧
    ((resolveRename ["photo.jpg".toList] "orig.jpg".toList "photo".toList
        ".jpg".toList
      = ((List.range 1000).find?
          (fun i => !conflictsWith ["photo.jpg".toList] "orig.jpg".toList
            (candidateName "photo".toList ".jpg".toList i))).map
          (candidateName "photo".toList ".jpg".toList)) ∧
    (resolveRename ["photo.jpg".toList] "orig.jpg".toList "photo".toList
        ".jpg".toList = none ↔
      (List.range 1000).all
        (fun i => conflictsWith ["photo.jpg".toList] "orig.jpg".toList
          (candidateName "photo".toList ".jpg".toList i)) = true)) :=
  ⟨by decide, c4_resolver_amended _ _ _ _ (by decide)⟩


/-- C4 counterexample: with all 1000 probed candidates taken, the resolver
gives up even though the numbered variant photo-1000.jpg — within the
claim's "up to 1000 numbered variants" — is conflict-free. -/
theorem c4_counterexample :
    resolveRename c4dir "orig.jpg".toList "photo".toList ".jpg".toList = none ∧
    conflictsWith c4dir "orig.jpg".toList
      (candidateName "photo".toList ".jpg".toList 1000) = false := by
  constructor
  · have hconf : ∀ i < 1000,
        conflictsWith c4dir "orig.jpg".toList
          (candidateName "photo".toList ".jpg".toList i) = true := by
      intro i hi
      have hmem : candidateName "photo".toList ".jpg".toList i ∈ c4dir :=
        List.mem_map_of_mem _ (List.mem_range.mpr hi)
      have hex : fsExists c4dir (candidateName "photo".toList ".jpg".toList i)
          = true := by
        simp [fsExists, List.contains, List.elem_eq_mem]
        exact hmem
      have hne : candidateName "photo".toList ".jpg".toList i
          ≠ "orig.jpg".toList := by
        by_cases h0 : i = 0
        · subst h0
          decide
        · rw [candidateName, if_neg h0, numberedName]
          rw [show "photo".toList = 'p' :: "hoto".toList from rfl,
            show "orig.jpg".toList = 'o' :: "rig.jpg".toList from rfl]
          intro heq
          have hh := congrArg List.head? heq
          simp at hh
      rw [conflictsWith, if_pos hex, decide_eq_true_eq]
      exact hne
    rw [resolveRename_eq_find]
    have hfind : (List.range 1000).find?
        (fun i => !conflictsWith c4dir "orig.jpg".toList
          (candidateName "photo".toList ".jpg".toList i)) = none := by
      rw [List.find?_eq_none]
      intro x hx
      have hcx := hconf x (List.mem_range.mp hx)
      simpa using hcx
    rw [hfind]
    rfl
  · decide

/-! ### Claim C5: one error-log entry per file -/

/-- Per-file log shape: processing one file either writes nothing (and the
outcome is a resolution) or writes exactly one entry under the file's own
name (and the outcome is terminal-but-not-resolved). -/
theorem finalizeRename_logs_spec (dir : List Str) (origName ext t : Str)
    (renameErr : Option Str) :
    (badOutcome (finalizeRename dir origName ext t renameErr).1 = true ∧
      ∃ m, (finalizeRename dir origName ext t renameErr).2.1 = [(origName, m)]) ∨
    (badOutcome (finalizeRename dir origName ext t renameErr).1 = false ∧
      (finalizeRename dir origName ext t renameErr).2.1 = []) := by
  by_cases hs : sanitize_filename t = []
  · left
    refine ⟨?_, emptyMsg, ?_⟩ <;> simp [finalizeRename, hs, badOutcome]
  · by_cases hno : lowerStr (sanitize_filename t ++ ext) = lowerStr origName
    · right
      refine ⟨?_, ?_⟩ <;> simp [finalizeRename, hs, hno, badOutcome]
    · rcases hres : resolveRename dir origName (sanitize_filename t) ext
        with _ | target
      · left
        refine ⟨?_, giveupMsg, ?_⟩ <;>
          simp [finalizeRename, hs, hno, hres, badOutcome]
      · rcases renameErr with _ | detail
        · right
          refine ⟨?_, ?_⟩ <;> simp [finalizeRename, hs, hno, hres, badOutcome]
        · left
          refine ⟨?_, renameFailMsg detail, ?_⟩ <;>
            simp [finalizeRename, hs, hno, hres, badOutcome]

/-- Per-file log discipline of the Batch Driver: at most one entry, under the
file's own name, written exactly when the outcome is not a resolution. -/
theorem processFile_logs_spec (mode : Mode) (gw : Nat → AttemptOutcome)
    (renameErr : Option Str) (dir : List Str) (f : FileEntry)
    (chs : List Choice) (c : Nat) :
    (badOutcome (processFile mode gw renameErr dir f chs c).outcome = true ∧
      ∃ m, (processFile mode gw renameErr dir f chs c).logs = [(f.name, m)]) ∨
    (badOutcome (processFile mode gw renameErr dir f chs c).outcome = false ∧
      (processFile mode gw renameErr dir f chs c).logs = []) := by
  rcases controllerLoop_outcome_cases gw (taskTransform mode) chs c none with
    ⟨raw, h⟩ | ⟨e, h⟩ | ⟨e, h⟩
  · cases mode
    · simp [processFile, h, badOutcome]
    · simp only [processFile, h]
      exact finalizeRename_logs_spec dir f.name f.ext _ renameErr
  · simp only [processFile, h]
    exact Or.inl ⟨rfl, skipMsg e, rfl⟩
  · simp only [processFile, h]
    exact Or.inl ⟨rfl, e, rfl⟩

/-- The names in a batch run's error log form a sublist of the queued file
names. -/
theorem runBatch_logs_names (mode : Mode) (gw : Nat → AttemptOutcome)
    (renameErr : Str → Option Str) :
    ∀ (files : List FileEntry) (dir : List Str) (chs : List Choice) (c : Nat),
      List.Sublist ((runBatch mode gw renameErr files dir chs c).logs.map
        Prod.fst) (files.map FileEntry.name) := by
  intro files
  induction files with
  | nil =>
    intro dir chs c
    simp [runBatch]
  | cons f rest ih =>
    intro dir chs c
    rw [runBatch]
    have hshape := processFile_logs_spec mode gw (renameErr f.name) dir f chs c
    have hone : List.Sublist ((processFile mode gw (renameErr f.name) dir f
        chs c).logs.map Prod.fst) [f.name] := by
      rcases hshape with ⟨_, m, hm⟩ | ⟨_, hm⟩ <;> simp [hm]
    split
    · exact hone.trans (by simp)
    · simp only [List.map_cons, List.map_append]
      exact List.Sublist.append hone (ih _ _ _)

/-- Every terminal-but-not-resolved outcome of a batch run has a log entry
under its file's name. -/
theorem runBatch_bad_outcome_logged (mode : Mode) (gw : Nat → AttemptOutcome)
    (renameErr : Str → Option Str) :
    ∀ (files : List FileEntry) (dir : List Str) (chs : List Choice) (c : Nat)
      (n : Str) (out : FileOutcome),
      (n, out) ∈ (runBatch mode gw renameErr files dir chs c).outcomes →
      badOutcome out = true →
      ∃ m, (n, m) ∈ (runBatch mode gw renameErr files dir chs c).logs := by
  intro files
  induction files with
  | nil =>
    intro dir chs c n out hmem
    simp [runBatch] at hmem
  | cons f rest ih =>
    intro dir chs c n out hmem hbad
    rw [runBatch] at hmem ⊢
    have hshape := processFile_logs_spec mode gw (renameErr f.name) dir f chs c
    by_cases habort : (processFile mode gw (renameErr f.name) dir f
        chs c).outcome = .abortRun
    · rw [if_pos habort] at hmem ⊢
      simp only [List.mem_singleton, Prod.mk.injEq] at hmem
      obtain ⟨hn, hout⟩ := hmem
      subst hn
      rcases hshape with ⟨_, m, hm⟩ | ⟨hgood, _⟩
      · exact ⟨m, by simp [hm]⟩
      · rw [habort] at hgood
        exact absurd hgood (by simp [badOutcome])
    · rw [if_neg habort] at hmem ⊢
      simp only [List.mem_cons, Prod.mk.injEq] at hmem
      rcases hmem with ⟨hn, hout⟩ | hmem
      · subst hn
        rcases hshape with ⟨_, m, hm⟩ | ⟨hgood, _⟩
        · exact ⟨m, by simp [hm]⟩
        · rw [hout] at hbad
          rw [hbad] at hgood
          cases hgood
      · obtain ⟨m, hm⟩ := ih _ _ _ n out hmem hbad
        refine ⟨m, ?_⟩
        simp [hm]

/-- A list of pairs with distinct first components holds at most one pair
with any given first component. -/
theorem countP_fst_le_one_of_nodup (l : List (Str × Str)) (n : Str)
    (h : (l.map Prod.fst).Nodup) : l.countP (fun p => p.1 == n) ≤ 1 := by
  induction l with
  | nil => simp
  | cons a t ih =>
    simp only [List.map_cons, List.nodup_cons] at h
    rw [List.countP_cons]
    by_cases ha : (a.1 == n) = true
    · have hzero : t.countP (fun p => p.1 == n) = 0 := by
        rw [List.countP_eq_zero]
        intro b hb hbn
        simp only [beq_iff_eq] at ha hbn
        exact h.1 (by
          rw [← ha, ← hbn] at *
          exact (List.mem_map_of_mem Prod.fst hb : b.1 ∈ t.map Prod.fst))
      rw [hzero, ha]
      simp
    · rw [Bool.eq_false_iff.mpr ha]
      simpa using ih h.2

/-- C5: within one batch run over distinctly named files, the error log never
holds two entries for one file, and every file whose outcome is
terminal-but-not-resolved (user skip, operator abort, empty sanitized name,
collision exhaustion, rename failure) has exactly one entry. -/
theorem c5_error_log_discipline (mode : Mode) (gw : Nat → AttemptOutcome)
    (renameErr : Str → Option Str) (files : List FileEntry) (dir : List Str)
    (chs : List Choice) (c : Nat)
    (hnd : (files.map FileEntry.name).Nodup) :
    ((runBatch mode gw renameErr files dir chs c).logs.map Prod.fst).Nodup ∧
    (runBatch mode gw renameErr files dir chs c).outcomes.all
      (fun q => !badOutcome q.2 ||
        (runBatch mode gw renameErr files dir chs c).logs.countP
          (fun p => p.1 == q.1) == 1) = true := by
  have hnodup : ((runBatch mode gw renameErr files dir chs c).logs.map
      Prod.fst).Nodup :=
    List.Nodup.sublist (runBatch_logs_names mode gw renameErr files dir chs c)
      hnd
  refine ⟨hnodup, ?_⟩
  rw [List.all_eq_true]
  rintro ⟨n, out⟩ hmem
  by_cases hbad : badOutcome out = true
  · obtain ⟨m, hm⟩ := runBatch_bad_outcome_logged mode gw renameErr files dir
      chs c n out hmem hbad
    have hle : (runBatch mode gw renameErr files dir chs c).logs.countP
        (fun p => p.1 == n) ≤ 1 :=
      countP_fst_le_one_of_nodup _ n hnodup
    have hge : 0 < (runBatch mode gw renameErr files dir chs c).logs.countP
        (fun p => p.1 == n) :=
      List.countP_pos_iff.mpr ⟨(n, m), hm, by simp⟩
    simp only [Bool.or_eq_true, Nat.beq_eq_true_eq]
    right
    omega
  · simp [hbad]

/-- Witness for C5 at a concrete two-file run, one skipped and one resolved. -/
theorem c5_error_log_discipline_witness :
    (([⟨"a".toList, ".jpg".toList⟩,
        ⟨"b".toList, ".jpg".toList⟩].map FileEntry.name).Nodup) ∧
    (((runBatch .caption
        (fun n => if n < 3 then .failure ['x'] else .success ['y'])
        (fun _ => none)
        [⟨"a".toList, ".jpg".toList⟩, ⟨"b".toList, ".jpg".toList⟩]
        [] [.skip] 0).logs.map Prod.fst).Nodup ∧
      (runBatch .caption
        (fun n => if n < 3 then .failure ['x'] else .success ['y'])
        (fun _ => none)
        [⟨"a".toList, ".jpg".toList⟩, ⟨"b".toList, ".jpg".toList⟩]
        [] [.skip] 0).outcomes.all
        (fun q => !badOutcome q.2 ||
          (runBatch .caption
            (fun n => if n < 3 then .failure ['x'] else .success ['y'])
            (fun _ => none)
            [⟨"a".toList, ".jpg".toList⟩, ⟨"b".toList, ".jpg".toList⟩]
            [] [.skip] 0).logs.countP
            (fun p => p.1 == q.1) == 1) = true) :=
  ⟨by decide,
    c5_error_log_discipline .caption
      (fun n => if n < 3 then .failure ['x'] else .success ['y'])
      (fun _ => none)
      [⟨"a".toList, ".jpg".toList⟩, ⟨"b".toList, ".jpg".toList⟩]
      [] [.skip] 0 (by decide)⟩

/-! ### Claim C10: deterministic sorted processing order -/

/-- The name order is total. -/
theorem nameLe_total : ∀ a b : Str, nameLe a b = true ∨ nameLe b a = true := by
  intro a
  induction a with
  | nil => intro b; left; rfl
  | cons x xs ih =>
    intro b
    cases b with
    | nil => right; rfl
    | cons y ys =>
      simp only [nameLe]
      by_cases hxy : x = y
      · rw [if_pos hxy, if_pos hxy.symm]
        exact ih ys
      · have hyx : ¬y = x := fun h => hxy h.symm
        rw [if_neg hxy, if_neg hyx, decide_eq_true_eq, decide_eq_true_eq]
        exact lt_or_gt_of_ne hxy

/-- The name order is transitive. -/
theorem nameLe_trans : ∀ a b c : Str,
    nameLe a b = true → nameLe b c = true → nameLe a c = true := by
  intro a
  induction a with
  | nil => intro b c _ _; rfl
  | cons x xs ih =>
    intro b c hab hbc
    cases b with
    | nil => cases hab
    | cons y ys =>
      cases c with
      | nil => cases hbc
      | cons z zs =>
        simp only [nameLe] at hab hbc ⊢
        by_cases hxy : x = y <;> by_cases hyz : y = z
        · rw [if_pos hxy] at hab
          rw [if_pos hyz] at hbc
          rw [if_pos (hxy.trans hyz)]
          exact ih ys zs hab hbc
        · rw [if_pos hxy] at hab
          rw [if_neg hyz, decide_eq_true_eq] at hbc
          have hxz : ¬x = z := by rw [hxy]; exact ne_of_lt hbc
          rw [if_neg hxz, decide_eq_true_eq, hxy]
          exact hbc
        · rw [if_neg hxy, decide_eq_true_eq] at hab
          rw [if_pos hyz] at hbc
          have hxz : ¬x = z := by rw [← hyz]; exact ne_of_lt hab
          rw [if_neg hxz, decide_eq_true_eq, ← hyz]
          exact hab
        · rw [if_neg hxy, decide_eq_true_eq] at hab
          rw [if_neg hyz, decide_eq_true_eq] at hbc
          have hlt : x < z := lt_trans hab hbc
          rw [if_neg (ne_of_lt hlt), decide_eq_true_eq]
          exact hlt

/-- The name order is antisymmetric. -/
theorem nameLe_antisymm : ∀ a b : Str,
    nameLe a b = true → nameLe b a = true → a = b := by
  intro a
  induction a with
  | nil =>
    intro b _ hba
    cases b with
    | nil => rfl
    | cons y ys => cases hba
  | cons x xs ih =>
    intro b hab hba
    cases b with
    | nil => cases hab
    | cons y ys =>
      simp only [nameLe] at hab hba
      by_cases hxy : x = y
      · rw [if_pos hxy] at hab
        rw [if_pos hxy.symm] at hba
        rw [hxy, ih ys hab hba]
      · have hyx : ¬y = x := fun h => hxy h.symm
        rw [if_neg hxy, decide_eq_true_eq] at hab
        rw [if_neg hyx, decide_eq_true_eq] at hba
        exact absurd (lt_trans hab hba) (lt_irrefl x)

/-- Two sorted lists of directory entries with the same members and distinct
names are equal: the processing order is determined by the set of files. -/
theorem sorted_eq_of_perm_of_nodup_names :
    ∀ (l₁ l₂ : List FileEntry), List.Perm l₁ l₂ → List.Sorted fileLe l₁ →
      List.Sorted fileLe l₂ → (l₁.map FileEntry.name).Nodup → l₁ = l₂ := by
  intro l₁
  induction l₁ with
  | nil =>
    intro l₂ hp _ _ _
    exact (List.Perm.eq_nil hp.symm).symm
  | cons a t ih =>
    intro l₂ hp hs₁ hs₂ hnd
    cases l₂ with
    | nil => exact absurd hp.symm (by simp)
    | cons b t₂ =>
      have hab : a = b := by
        have ha2 : a ∈ b :: t₂ := hp.subset (List.mem_cons_self _ _)
        have hb1 : b ∈ a :: t := hp.symm.subset (List.mem_cons_self _ _)
        rcases List.mem_cons.1 ha2 with hab | ha2t
        · exact hab
        · rcases List.mem_cons.1 hb1 with hba | hb1t
          · exact hba.symm
          · have h1 : fileLe a b := (List.pairwise_cons.mp hs₁).1 b hb1t
            have h2 : fileLe b a := (List.pairwise_cons.mp hs₂).1 a ha2t
            have hname : a.name = b.name := nameLe_antisymm _ _ h1 h2
            have hmem : a.name ∈ t.map FileEntry.name := by
              rw [hname]
              exact List.mem_map_of_mem FileEntry.name hb1t
            exact absurd hmem (List.nodup_cons.mp (by simpa using hnd)).1
      subst hab
      rw [ih t₂ hp.cons_inv (List.pairwise_cons.mp hs₁).2
        (List.pairwise_cons.mp hs₂).2 (List.nodup_cons.mp (by simpa using hnd)).2]

/-- C10: `get_image_files` returns the eligible entries sorted by path; the
result is a permutation of the eligibility filter and is the same for every
enumeration order of the directory, so the Batch Driver's processing order is
deterministic. -/
theorem c10_sorted_deterministic_order (entries : List FileEntry)
    (hnd : ((entries.filter eligibleFile).map FileEntry.name).Nodup) :
    List.Sorted fileLe (get_image_files entries) ∧
    List.Perm (get_image_files entries) (entries.filter eligibleFile) ∧
    ∀ entries', List.Perm entries' entries →
      get_image_files entries' = get_image_files entries := by
  haveI : IsTotal FileEntry fileLe := ⟨fun f g => nameLe_total f.name g.name⟩
  haveI : IsTrans FileEntry fileLe :=
    ⟨fun f g h hfg hgh => nameLe_trans f.name g.name h.name hfg hgh⟩
  refine ⟨List.sorted_insertionSort fileLe _, List.perm_insertionSort fileLe _,
    ?_⟩
  intro entries' hperm
  have hp : List.Perm (get_image_files entries') (get_image_files entries) :=
    (List.perm_insertionSort fileLe _).trans
      ((hperm.filter eligibleFile).trans
        (List.perm_insertionSort fileLe _).symm)
  have hnd' : ((get_image_files entries').map FileEntry.name).Nodup := by
    have hp2 : List.Perm ((get_image_files entries').map FileEntry.name)
        ((entries.filter eligibleFile).map FileEntry.name) :=
      ((List.perm_insertionSort fileLe _).trans
        (hperm.filter eligibleFile)).map FileEntry.name
    exact hp2.nodup_iff.mpr hnd
  exact sorted_eq_of_perm_of_nodup_names _ _ hp
    (List.sorted_insertionSort fileLe _) (List.sorted_insertionSort fileLe _)
    hnd'

/-- Witness for C10 at a concrete directory with two eligible files and one
ineligible one, listed in two different orders. -/
theorem c10_sorted_deterministic_order_witness :
    ((c10entriesA.filter eligibleFile).map FileEntry.name).Nodup ∧
    List.Sorted fileLe (get_image_files c10entriesA) ∧
    List.Perm (get_image_files c10entriesA) (c10entriesA.filter eligibleFile) ∧
    List.Perm c10entriesB c10entriesA ∧
    get_image_files c10entriesB = get_image_files c10entriesA :=
  ⟨by decide,
    (c10_sorted_deterministic_order c10entriesA (by decide)).1,
    (c10_sorted_deterministic_order c10entriesA (by decide)).2.1,
    by decide,
    (c10_sorted_deterministic_order c10entriesA (by decide)).2.2 c10entriesB
      (by decide)⟩

end CaptionImages
